import Mathlib

/-!
Verification development for the `mortis` falling-block puzzle engine
(`src/board.rs`, `src/main.rs`).

The board operations are embedded shallowly: the grid is a total function
`Nat → Nat → Bool` (row 0 is the bottom row; only indices `y < 15`,
`x < 10` are meaningful), and per-column heights are `Nat → Nat`.

Machine-integer behaviour is modelled explicitly where it matters, with
the release-build (wrapping) semantics throughout: the `diversity`
feature performs an unsigned (`usize`) subtraction that wraps modulo
2^64, followed by a truncating cast to `i32` (`wrapSub64`, `toInt32`);
and the score is the value of the Rust `i32` field, whose update
`self.score += add_score` is wrapping 32-bit addition (`wrapI32`) — no
program invariant bounds the score, since `preview` runs an unbounded
game loop.

The repository's `src/` directory contains only `board.rs` and `main.rs`;
the module `piece` (`PieceType`, `ROTATIONS`, the `Piece` shape records)
is declared (`pub mod piece;`) but its file is absent, so the piece table
below is modelled from the specification.  All universally quantified
theorems hold for arbitrary piece shapes and hence do not depend on the
modelled table's exact contents; only concrete witnesses instantiate it.
-/

namespace Mortis

def BOARD_HEIGHT : Nat := 15
def BOARD_WIDTH : Nat := 10
def FEATURES : Nat := 13

/-- Modelled from the spec: the piece-geometry record of the missing
`src/piece.rs` — an occupancy mask over a `width × height` bounding box
(`shape[i][j] ≠ 0` means occupied, `i` counted upward from the bottom of
the box, matching `y = required_y + i` in `board.rs`).  The
`leftmost`/`rightmost` extents of the spec are omitted: no embedded
operation reads them. -/
structure Piece where
  shape : List (List Nat)
  width : Nat
  height : Nat
deriving DecidableEq

/-- Cell `(i, j)` of the piece's bounding box is occupied
(`piece.shape[i][j] != 0` in the source). -/
def Piece.occ (p : Piece) (i j : Nat) : Bool :=
  ((p.shape.getD i []).getD j 0) != 0

/-- Modelled from the spec: the seven tetromino type tags of the missing
`src/piece.rs`. -/
inductive PieceType
  | I | T | O | J | L | S | Z
deriving DecidableEq

/-- The `u8` discriminant of a piece type (`piece_type as u8`). -/
def PieceType.toColor : PieceType → Nat
  | .I => 0 | .T => 1 | .O => 2 | .J => 3 | .L => 4 | .S => 5 | .Z => 6

/-- Modelled from the spec: the `ROTATIONS` table of the missing
`src/piece.rs` — for each of the 7 standard tetromino shapes, its 4
rotation states as occupancy masks with their bounding-box width and
height. -/
def rotations : PieceType → Fin 4 → Piece
  | .I, ⟨0, _⟩ => ⟨[[1, 1, 1, 1]], 4, 1⟩
  | .I, ⟨1, _⟩ => ⟨[[1], [1], [1], [1]], 1, 4⟩
  | .I, ⟨2, _⟩ => ⟨[[1, 1, 1, 1]], 4, 1⟩
  | .I, _      => ⟨[[1], [1], [1], [1]], 1, 4⟩
  | .T, ⟨0, _⟩ => ⟨[[1, 1, 1], [0, 1, 0]], 3, 2⟩
  | .T, ⟨1, _⟩ => ⟨[[0, 1], [1, 1], [0, 1]], 2, 3⟩
  | .T, ⟨2, _⟩ => ⟨[[0, 1, 0], [1, 1, 1]], 3, 2⟩
  | .T, _      => ⟨[[1, 0], [1, 1], [1, 0]], 2, 3⟩
  | .O, _      => ⟨[[1, 1], [1, 1]], 2, 2⟩
  | .J, ⟨0, _⟩ => ⟨[[1, 1, 1], [0, 0, 1]], 3, 2⟩
  | .J, ⟨1, _⟩ => ⟨[[1, 1], [0, 1], [0, 1]], 2, 3⟩
  | .J, ⟨2, _⟩ => ⟨[[1, 0, 0], [1, 1, 1]], 3, 2⟩
  | .J, _      => ⟨[[1, 0], [1, 0], [1, 1]], 2, 3⟩
  | .L, ⟨0, _⟩ => ⟨[[1, 1, 1], [1, 0, 0]], 3, 2⟩
  | .L, ⟨1, _⟩ => ⟨[[0, 1], [0, 1], [1, 1]], 2, 3⟩
  | .L, ⟨2, _⟩ => ⟨[[0, 0, 1], [1, 1, 1]], 3, 2⟩
  | .L, _      => ⟨[[1, 1], [1, 0], [1, 0]], 2, 3⟩
  | .S, ⟨0, _⟩ => ⟨[[1, 1, 0], [0, 1, 1]], 3, 2⟩
  | .S, ⟨1, _⟩ => ⟨[[0, 1], [1, 1], [1, 0]], 2, 3⟩
  | .S, ⟨2, _⟩ => ⟨[[1, 1, 0], [0, 1, 1]], 3, 2⟩
  | .S, _      => ⟨[[0, 1], [1, 1], [1, 0]], 2, 3⟩
  | .Z, ⟨0, _⟩ => ⟨[[0, 1, 1], [1, 1, 0]], 3, 2⟩
  | .Z, ⟨1, _⟩ => ⟨[[1, 0], [1, 1], [0, 1]], 2, 3⟩
  | .Z, ⟨2, _⟩ => ⟨[[0, 1, 1], [1, 1, 0]], 3, 2⟩
  | .Z, _      => ⟨[[1, 0], [1, 1], [0, 1]], 2, 3⟩

/-- `Board` of `board.rs`: occupancy grid, parallel colour grid,
per-column height cache, cumulative score.  Grids are total functions;
row 0 is the bottom.  `score` holds the value of the Rust `i32` field:
it is initialised to 0 and every update goes through the wrapping 32-bit
addition `wrapI32`, so on boards the program builds it always lies in
`[-2^31, 2^31)`. -/
structure Board where
  grid : Nat → Nat → Bool
  color_grid : Nat → Nat → Option Nat
  heights : Nat → Nat
  score : Int

/-- `Board::new()`: the empty board. -/
def Board.new : Board :=
  { grid := fun _ _ => false
    color_grid := fun _ _ => none
    heights := fun _ => 0
    score := 0 }

/-! ### The gravity computation (`board.rs` lines 70–92 / 318–340)

The "Calculate required y position" block is textually identical in
`simulate` and `apply`; it is embedded once.  The Rust computes with
`i32` (`h_col as i32 - i as i32`), so the fold is over `Int`. -/

/-- The `required_y` accumulator loop: for each spanned column `dx`, the
inner loop computes `(max_i_for_dx, has_block)`; the outer loop keeps the
running maximum (an `i32`, started at 0). -/
def requiredYInt (h : Nat → Nat) (p : Piece) (x : Nat) : Int :=
  (List.range p.width).foldl
    (fun req dx =>
      let col := x + dx
      let hcol := h col
      let r := (List.range p.height).foldl
        (fun (acc : Int × Bool) i =>
          if p.occ i dx then
            let cur : Int := (hcol : Int) - (i : Int)
            (if cur > acc.1 then cur else acc.1, true)
          else acc)
        ((0 : Int), false)
      if r.2 = true ∧ r.1 > req then r.1 else req)
    0

/-- `let required_y = required_y as usize;` — the accumulator never goes
below its initial 0, so the cast is `Int.toNat`. -/
def requiredY (h : Nat → Nat) (p : Piece) (x : Nat) : Nat :=
  (requiredYInt h p x).toNat

/-! ### Block collection and the fit check (lines 95–107 / 343–355) -/

/-- The `(y, col)` cells the piece occupies when its box bottom rests at
row `ry` and its left edge at column `x` (the `blocks` vector). -/
def pieceBlocks (p : Piece) (x ry : Nat) : List (Nat × Nat) :=
  (List.range p.height).flatMap fun i =>
    (List.range p.width).filterMap fun j =>
      if p.occ i j then some (ry + i, x + j) else none

/-- The fit check: every block cell must be below the top of the board
and currently empty (`y >= BOARD_HEIGHT || self.grid[y][col]` rejects).
The Rust early-returns at the first offending cell; as the result is
only accept/reject, this equals the conjunction over all cells. -/
def fitsOn (g : Nat → Nat → Bool) (bs : List (Nat × Nat)) : Bool :=
  bs.all fun yc => decide (yc.1 < BOARD_HEIGHT) && !(g yc.1 yc.2)

/-! ### Placing the piece (lines 113–119 / 357–364) -/

def placeGrid (g : Nat → Nat → Bool) (bs : List (Nat × Nat)) :
    Nat → Nat → Bool :=
  bs.foldl (fun g yc => fun y x => if y = yc.1 ∧ x = yc.2 then true else g y x) g

def placeColor (cg : Nat → Nat → Option Nat) (bs : List (Nat × Nat))
    (color : Nat) : Nat → Nat → Option Nat :=
  bs.foldl (fun cg yc => fun y x => if y = yc.1 ∧ x = yc.2 then some color else cg y x) cg

def placeHeights (h : Nat → Nat) (bs : List (Nat × Nat)) : Nat → Nat :=
  bs.foldl (fun h yc => fun c => if c = yc.2 then max (h c) (yc.1 + 1) else h c) h

/-! ### Full rows, clearing, height recomputation -/

/-- Rows that are fully occupied (lines 122–127 / 367–372); ascending. -/
def fullRows (g : Nat → Nat → Bool) : List Nat :=
  (List.range BOARD_HEIGHT).filter fun y =>
    (List.range BOARD_WIDTH).all fun x => g y x

/-- `simulate`'s clearing loop (lines 131–147): iterates `y` from the top
down, skipping full rows (matched against `full_rows` from its top end),
and copies each surviving row to `y + shift` — i.e. surviving rows move
*up* by the number of cleared rows above them, leaving the vacated rows
at the *bottom*. -/
def clearUp (full : List Nat) (g : Nat → Nat → Bool) : Nat → Nat → Bool :=
  ((List.range BOARD_HEIGHT).reverse.foldl
    (fun (acc : Nat × (Nat → Nat → Bool)) y =>
      if acc.1 < full.length ∧ y = full.getD (full.length - 1 - acc.1) 0 then
        (acc.1 + 1, acc.2)
      else
        (acc.1,
          if y + acc.1 < BOARD_HEIGHT then
            fun y' x => if y' = y + acc.1 then g y x else acc.2 y' x
          else acc.2))
    (0, fun _ _ => false)).2

/-- `apply`'s clearing loop (lines 380–391): iterates `y` from the bottom
up, skipping full rows, and copies each surviving row to `y - shift` —
surviving rows move *down* by the number of cleared rows below them.
Generic in the cell type because the same loop copies both the occupancy
grid (`e = false`) and the colour grid (`e = none`). -/
def clearDown {α : Type} (full : List Nat) (e : α) (g : Nat → Nat → α) :
    Nat → Nat → α :=
  ((List.range BOARD_HEIGHT).foldl
    (fun (acc : Nat × (Nat → Nat → α)) y =>
      if full.contains y then
        (acc.1 + 1, acc.2)
      else
        (acc.1,
          if y - acc.1 < BOARD_HEIGHT then
            fun y' x => if y' = y - acc.1 then g y x else acc.2 y' x
          else acc.2))
    (0, fun _ _ => e)).2

/-- The first `n` iterations of `apply`'s clearing loop (the running
`(shift, new_grid)` pair); `clearDown` is the full 15-row run. -/
def clearDownAux {α : Type} (full : List Nat) (g : Nat → Nat → α) (e : α)
    (n : Nat) : Nat × (Nat → Nat → α) :=
  (List.range n).foldl
    (fun (acc : Nat × (Nat → Nat → α)) y =>
      if full.contains y then
        (acc.1 + 1, acc.2)
      else
        (acc.1,
          if y - acc.1 < BOARD_HEIGHT then
            fun y' x => if y' = y - acc.1 then g y x else acc.2 y' x
          else acc.2))
    (0, fun _ _ => e)

/-- Height recomputation after clearing (lines 150–158 / 397–405): scan
each column from the top down for its highest occupied cell. -/
def recalcHeights (g : Nat → Nat → Bool) : Nat → Nat := fun x =>
  match (List.range BOARD_HEIGHT).reverse.find? (fun y => g y x) with
  | some y => y + 1
  | none => 0

/-! ### The feature computations of `simulate` (lines 161–299) -/

/-- Feature 0, `landing_height`: the highest block `y`
(`blocks.iter().map(|&(y, _)| y).max().unwrap_or(0)`). -/
def landingHeightOf (bs : List (Nat × Nat)) : Nat :=
  bs.foldl (fun m yc => max m yc.1) 0

/-- The `eroded` count: blocks of the piece lying in a cleared row. -/
def erodedOf (bs : List (Nat × Nat)) (full : List Nat) : Nat :=
  bs.countP fun yc => full.contains yc.1

/-- Feature 2, `row_transitions`: per row, `prev` starts `true` (the
left boundary counts as occupied), each state change increments, and an
empty-ending row gets one more for the right boundary. -/
def rowTransOf (g : Nat → Nat → Bool) : Nat :=
  (List.range BOARD_HEIGHT).foldl
    (fun acc y =>
      let r := (List.range BOARD_WIDTH).foldl
        (fun (pc : Bool × Nat) x =>
          let curr := g y x
          (curr, if curr != pc.1 then pc.2 + 1 else pc.2))
        (true, 0)
      acc + (if !r.1 then r.2 + 1 else r.2))
    0

/-- Feature 3, `column_transitions`: the same computation transposed. -/
def colTransOf (g : Nat → Nat → Bool) : Nat :=
  (List.range BOARD_WIDTH).foldl
    (fun acc x =>
      let r := (List.range BOARD_HEIGHT).foldl
        (fun (pc : Bool × Nat) y =>
          let curr := g y x
          (curr, if curr != pc.1 then pc.2 + 1 else pc.2))
        (true, 0)
      acc + (if !r.1 then r.2 + 1 else r.2))
    0

/-- Feature 4, `holes`: per column, find the topmost occupied cell, then
count empty cells strictly below it. -/
def holesOf (g : Nat → Nat → Bool) : Nat :=
  (List.range BOARD_WIDTH).foldl
    (fun acc x =>
      acc +
        match (List.range BOARD_HEIGHT).reverse.find? (fun y => g y x) with
        | some t => (List.range t).countP fun y => !(g y x)
        | none => 0)
    0

/-- Feature 5, `board_wells` (lines 236–252): for each column, `left`
and `right` default to the column's *own* height at the edges, and the
column contributes `min(left, right) - current` when strictly lower than
both. -/
def wellsOf (h : Nat → Nat) : Nat :=
  (List.range BOARD_WIDTH).foldl
    (fun acc x =>
      let left := if x > 0 then h (x - 1) else h x
      let right := if x < BOARD_WIDTH - 1 then h (x + 1) else h x
      let current := h x
      if current < left ∧ current < right then
        acc + (min left right - current)
      else acc)
    0

/-- Feature 6, `hole_depth`: per column, each empty cell below the
cached height contributes `height - y`. -/
def holeDepthOf (g : Nat → Nat → Bool) (h : Nat → Nat) : Nat :=
  (List.range BOARD_WIDTH).foldl
    (fun acc x =>
      acc +
        (List.range (h x)).foldl
          (fun a y => if !(g y x) then a + (h x - y) else a) 0)
    0

/-- Feature 7, `rows_with_holes`: rows containing an empty cell below
its column's height. -/
def rowsWithHolesOf (g : Nat → Nat → Bool) (h : Nat → Nat) : Nat :=
  (List.range BOARD_HEIGHT).countP fun y =>
    (List.range BOARD_WIDTH).any fun x => !(g y x) && decide (y < h x)

/-- Wrapping `usize` subtraction `a - b` (release-build semantics,
modulo 2^64; meaningful for `b ≤ 2^64`, which every height satisfies). -/
def wrapSub64 (a b : Nat) : Nat :=
  (a + (2 ^ 64 - b)) % 2 ^ 64

/-- The truncating cast `as i32`: keep the low 32 bits, reinterpreted as
two's complement. -/
def toInt32 (n : Nat) : Int :=
  let m : Nat := n % 2 ^ 32
  if m < 2 ^ 31 then (m : Int) else (m : Int) - 2 ^ 32

/-- Wrapping `i32` arithmetic (release-build semantics): reduce to the
two's-complement range `[-2^31, 2^31)`.  Models `self.score += add_score`
on the `i32` score field. -/
def wrapI32 (z : Int) : Int :=
  (z + 2 ^ 31) % 2 ^ 32 - 2 ^ 31

/-- Feature 8, `diversity` (lines 284–290): the running pair is
`(diversity, prev_h)`; each step adds
`((temp_heights[x] - prev_h) as i32).abs()`, where the inner subtraction
is the wrapping `usize` subtraction. -/
def diversityOf (h : Nat → Nat) : Int :=
  ((List.range' 1 (BOARD_WIDTH - 1)).foldl
    (fun (acc : Int × Nat) x =>
      (acc.1 + ((toInt32 (wrapSub64 (h x) acc.2)).natAbs : Int), h x))
    (0, h 0)).1

/-- The height sum `(0..W).map(|i| temp_heights[i]).sum()`; the RFB
features 9–12 are fixed real functions of this sum alone
(`c = sum / W`, `term = c - k·h/3`, `exp(-term²/(2(h/5)²))`), so the sum
determines them. -/
def heightSumOf (h : Nat → Nat) : Nat :=
  (List.range BOARD_WIDTH).foldl (fun s i => s + h i) 0

/-- What `simulate` returns: the cleared-row count (`i32`) and the
feature vector.  Features 0–8 are exact integers in the source (cast to
`f64` only at the very end), kept here at their integer types; the four
floating-point RFB features 9–12 are represented by the height sum that
determines them. -/
structure SimResult where
  cleared : Int
  landing_height : Nat
  eroded : Int
  row_transitions : Nat
  column_transitions : Nat
  holes : Nat
  board_wells : Nat
  hole_depth : Nat
  rows_with_holes : Nat
  diversity : Int
  heightSum : Nat
deriving DecidableEq

/-- The state-computing core shared by the two halves of `simulate`:
bounds check, gravity, fit check, hypothetical placement and clearing.
Returns the post-clear grid and heights, the full-row list, and the
block list (everything the feature computations read). -/
def simCore (b : Board) (p : Piece) (x : Nat) :
    Option ((Nat → Nat → Bool) × (Nat → Nat) × List Nat × List (Nat × Nat)) :=
  if BOARD_WIDTH < x + p.width then none
  else
    let ry := requiredY b.heights p x
    let bs := pieceBlocks p x ry
    if !(fitsOn b.grid bs) then none
    else
      let tg := placeGrid b.grid bs
      let th := placeHeights b.heights bs
      let full := fullRows tg
      if full.isEmpty then some (tg, th, full, bs)
      else
        let tg2 := clearUp full tg
        some (tg2, recalcHeights tg2, full, bs)

/-- `Board::simulate` over an explicit piece record: compute the
hypothetical state, then the features over it. -/
def simulateP (b : Board) (p : Piece) (x : Nat) : Option SimResult :=
  (simCore b p x).map fun s =>
    let tg := s.1
    let th := s.2.1
    let full := s.2.2.1
    let bs := s.2.2.2
    { cleared := (full.length : Int)
      landing_height := landingHeightOf bs
      eroded := (erodedOf bs full : Int) * (full.length : Int)
      row_transitions := rowTransOf tg
      column_transitions := colTransOf tg
      holes := holesOf tg
      board_wells := wellsOf th
      hole_depth := holeDepthOf tg th
      rows_with_holes := rowsWithHolesOf tg th
      diversity := diversityOf th
      heightSum := heightSumOf th }

/-- `Board::simulate(piece_type, x, rotate)`: look up the rotation table
and run the read-only evaluation.  The Rust receives `&self`; the
embedding is accordingly a pure function of the board. -/
def simulate (b : Board) (pt : PieceType) (x : Nat) (rot : Fin 4) :
    Option SimResult :=
  simulateP b (rotations pt rot) x

/-- The scoring table of `apply` (lines 408–414): the Rust
`match full_rows.len()` with arms 1/2/3/4 and a catch-all 0. -/
def scoreBonus (k : Nat) : Int :=
  if k = 1 then 100
  else if k = 2 then 300
  else if k = 3 then 500
  else if k = 4 then 800
  else 0

/-- `Board::apply` over an explicit piece record and colour.  `&mut self`
is threaded explicitly: the result pairs the Rust return value with the
board as it stands at the corresponding `return`, so each early `Err`
hands back the untouched input board, and mutation happens only after
both validation checks. -/
def applyP (b : Board) (p : Piece) (color : Nat) (x : Nat) :
    Except String Unit × Board :=
  if BOARD_WIDTH < x + p.width then (.error "Piece out of bounds", b)
  else
    let ry := requiredY b.heights p x
    let bs := pieceBlocks p x ry
    if !(fitsOn b.grid bs) then (.error "Piece doesn't fit", b)
    else
      let g1 := placeGrid b.grid bs
      let cg1 := placeColor b.color_grid bs color
      let h1 := placeHeights b.heights bs
      let full := fullRows g1
      if full.isEmpty then
        (.ok (), { grid := g1, color_grid := cg1, heights := h1, score := b.score })
      else
        let g2 := clearDown full false g1
        let cg2 := clearDown full none cg1
        (.ok (),
          { grid := g2
            color_grid := cg2
            heights := recalcHeights g2
            score := wrapI32 (b.score + scoreBonus full.length) })

/-- `Board::apply(piece_type, x, rotate)`. -/
def apply (b : Board) (pt : PieceType) (x : Nat) (rot : Fin 4) :
    Except String Unit × Board :=
  applyP b (rotations pt rot) pt.toColor x

/-- Boards reachable by the program: every entry point starts from
`Board::new()` and mutates it only through successful `apply` calls with
a table piece and a rotation index in 0..3. -/
inductive Reachable : Board → Prop
  | base : Reachable Board.new
  | step {b : Board} (pt : PieceType) (x : Nat) (rot : Fin 4) :
      Reachable b → (apply b pt x rot).1 = .ok () →
      Reachable (apply b pt x rot).2

/-! ### Derived shorthands and specification-side formulas -/

/-- The blocks a placement would occupy, at the gravity-determined rest
position. -/
def placedBlocks (b : Board) (p : Piece) (x : Nat) : List (Nat × Nat) :=
  pieceBlocks p x (requiredY b.heights p x)

/-- The grid right after hypothetically placing the piece (before any
clearing) — the grid over which both entry points look for full rows. -/
def placedGrid (b : Board) (p : Piece) (x : Nat) : Nat → Nat → Bool :=
  placeGrid b.grid (placedBlocks b p x)

/-- The resting row as the specification words it: the maximum of
`height[c] - i` over all spanned columns `c` and occupied row offsets
`i`, clamped to at least 0 (folding `max` from 0 over `Int`). -/
def restingSpec (h : Nat → Nat) (p : Piece) (x : Nat) : Int :=
  ((List.range p.width).flatMap fun j =>
    (List.range p.height).filterMap fun i =>
      if p.occ i j then some ((h (x + j) : Int) - (i : Int)) else none).foldl max 0

/-- The column height as the specification words it: one past the row
of the topmost occupied cell of the column, or 0 if the column is
empty. -/
def specColHeight (g : Nat → Nat → Bool) (c : Nat) : Nat :=
  Nat.findGreatest (fun k => 0 < k ∧ g (k - 1) c = true) BOARD_HEIGHT

/-- Number of cleared rows strictly below row `y`. -/
def clearedBelow (full : List Nat) (y : Nat) : Nat :=
  full.countP fun f => decide (f < y)

/-- `n` successive `simulate` calls with identical arguments, threading
the board state from call to call.  The Rust method borrows the board
immutably (`&self`), so each call hands the next one the same board;
the embedding records that by passing the board through. -/
def simulateRun (pt : PieceType) (x : Nat) (rot : Fin 4) :
    Board → Nat → List (Option SimResult) × Board
  | b, 0 => ([], b)
  | b, n + 1 =>
      let r := simulate b pt x rot
      let rest := simulateRun pt x rot b n
      (r :: rest.1, rest.2)

/-- The `board_wells` formula as the specification words it: every
column strictly lower than its neighbors contributes, where an edge
column is compared only to its single existing neighbor and contributes
that neighbor's height minus its own. -/
def wellsSpec (h : Nat → Nat) : Nat :=
  (List.range BOARD_WIDTH).foldl
    (fun acc x =>
      if x = 0 then
        (if h 0 < h 1 then acc + (h 1 - h 0) else acc)
      else if x = BOARD_WIDTH - 1 then
        (if h x < h (x - 1) then acc + (h (x - 1) - h x) else acc)
      else if h x < h (x - 1) ∧ h x < h (x + 1) then
        acc + (min (h (x - 1)) (h (x + 1)) - h x)
      else acc)
    0

/-- The amended `board_wells` formula: only *interior* columns strictly
lower than both neighbors contribute; edge columns never contribute
(the code compares an edge column against its own height). -/
def wellsInterior (h : Nat → Nat) : Nat :=
  (List.range BOARD_WIDTH).foldl
    (fun acc x =>
      if 0 < x ∧ x + 1 < BOARD_WIDTH ∧ h x < h (x - 1) ∧ h x < h (x + 1) then
        acc + (min (h (x - 1)) (h (x + 1)) - h x)
      else acc)
    0

/-- The `diversity` formula as the specification words it: the sum of
absolute differences between heights of horizontally adjacent
columns. -/
def specDiversity (h : Nat → Nat) : Int :=
  (List.range' 1 (BOARD_WIDTH - 1)).foldl
    (fun acc x => acc + ((((h x : Int) - (h (x - 1) : Int)).natAbs : Int))) 0

/-! ### Move selection (`main.rs`, `simulate_game` lines 196–221 and
`preview` lines 240–265)

Both loops enumerate `rotate in 0..4` and `x in 0..=(W - width)`, keep
the placements `simulate` accepts together with their weighted feature
score, stably sort by score and commit element 0.  The score is a `f64`
dot product of the features against a weight vector; it is abstracted
here to an arbitrary function into a linear order (the Rust comparator
`partial_cmp(..).unwrap_or(Equal)` is total on the non-NaN values the
program produces). -/

def possibleActions {α : Type} (b : Board) (pt : PieceType)
    (score : SimResult → α) : List (Fin 4 × Nat × α) :=
  (List.finRange 4).flatMap fun rot =>
    (List.range (BOARD_WIDTH - (rotations pt rot).width + 1)).filterMap fun x =>
      (simulate b pt x rot).map fun r => (rot, x, score r)

/-- One insertion step of a stable ascending sort on the score
component: the new element goes after every element whose score is less
than or equal to its own. -/
def insertAction {α : Type} [LinearOrder α] (a : Fin 4 × Nat × α) :
    List (Fin 4 × Nat × α) → List (Fin 4 × Nat × α)
  | [] => [a]
  | c :: l => if a.2.2 < c.2.2 then a :: c :: l else c :: insertAction a l

/-- Rust's `sort_by` is a stable sort; for a total comparator the stably
sorted permutation is unique, so this left-fold insertion sort (each
element lands after earlier elements of equal score) is an exact model
of `possible_actions.sort_by(|a, b| a.2.partial_cmp(&b.2)...)`. -/
def sortActions {α : Type} [LinearOrder α] (l : List (Fin 4 × Nat × α)) :
    List (Fin 4 × Nat × α) :=
  l.foldl (fun acc a => insertAction a acc) []

/-- `possible_actions[0]` after sorting: the committed action. -/
def chooseAction {α : Type} [LinearOrder α] (b : Board) (pt : PieceType)
    (score : SimResult → α) : Option (Fin 4 × Nat × α) :=
  (sortActions (possibleActions b pt score)).head?

/-- Running best-so-far: keep the incumbent unless the new action's
score is strictly smaller.  Folding this over the enumeration equals the
head of the stably sorted list (proved below), which lets the selected
element be characterised directly. -/
def pickMin {α : Type} [LinearOrder α] (o : Option (Fin 4 × Nat × α))
    (a : Fin 4 × Nat × α) : Option (Fin 4 × Nat × α) :=
  some
    (match o with
      | none => a
      | some c => if a.2.2 < c.2.2 then a else c)

/-- The loop body of `simulate_game`/`preview` after selection:
`board.apply(piece_type, best_action.1, best_action.0)` (`none` when no
placement is legal — the game-over case). -/
def gameStep {α : Type} [LinearOrder α] (b : Board) (pt : PieceType)
    (score : SimResult → α) : Option (Except String Unit × Board) :=
  (chooseAction b pt score).map fun a => apply b pt a.2.1 a.1

/-- Enumeration order of the selection loops: lower rotation index
first, then lower column. -/
def enumLE (a c : Fin 4 × Nat) : Prop :=
  a.1 < c.1 ∨ (a.1 = c.1 ∧ a.2 ≤ c.2)

/-- A concrete board: row 0 occupied in columns 1–9 and column 0 free,
with heights cached accordingly.  Dropping a vertical `I` into column 0
fills row 0 and clears it while three piece cells survive above — the
scenario separating `simulate`'s clearing from `apply`'s. -/
def demoBoard : Board :=
  { grid := fun y x => y == 0 && decide (1 ≤ x) && decide (x < 10)
    color_grid := fun y x =>
      if y == 0 && decide (1 ≤ x) && decide (x < 10) then some 0 else none
    heights := fun c => if 1 ≤ c ∧ c < 10 then 1 else 0
    score := 0 }

/-- `demoBoard` with the score driven up to `2^31 - 50`, just below
`i32::MAX`: the next single-row clear makes the wrapping
`score += 100` overflow. -/
def overflowBoard : Board :=
  { demoBoard with score := 2147483598 }

/-! ## Helper lemmas: success and failure of the two entry points -/

theorem fitsOn_eq_true_iff (g : Nat → Nat → Bool) (bs : List (Nat × Nat)) :
    fitsOn g bs = true ↔
      ∀ yc ∈ bs, yc.1 < BOARD_HEIGHT ∧ g yc.1 yc.2 = false := by
  simp [fitsOn, List.all_eq_true, Bool.and_eq_true, decide_eq_true_eq,
    Bool.not_eq_true']

theorem fitsOn_eq_false_iff (g : Nat → Nat → Bool) (bs : List (Nat × Nat)) :
    fitsOn g bs = false ↔
      ∃ yc ∈ bs, BOARD_HEIGHT ≤ yc.1 ∨ g yc.1 yc.2 = true := by
  rw [← Bool.not_eq_true, fitsOn_eq_true_iff]
  push_neg
  constructor
  · rintro ⟨yc, hm, hyc⟩
    by_cases hy : yc.1 < BOARD_HEIGHT
    · exact ⟨yc, hm, Or.inr (by simpa using hyc hy)⟩
    · exact ⟨yc, hm, Or.inl (le_of_not_lt hy)⟩
  · rintro ⟨yc, hm, hy | hg⟩
    · exact ⟨yc, hm, fun hlt => absurd hlt (not_lt.mpr hy)⟩
    · exact ⟨yc, hm, fun _ => by simp [hg]⟩

theorem simCore_eq_none_iff (b : Board) (p : Piece) (x : Nat) :
    simCore b p x = none ↔
      BOARD_WIDTH < x + p.width ∨
        fitsOn b.grid (placedBlocks b p x) = false := by
  by_cases h1 : BOARD_WIDTH < x + p.width
  · simp [simCore, h1]
  · by_cases h2 : fitsOn b.grid (placedBlocks b p x) = true
    · have h2' := h2
      unfold placedBlocks at h2'
      simp only [simCore, h1, if_false, h2', Bool.not_true]
      rw [if_neg (by simp : ¬(false = true))]
      constructor
      · intro h
        split at h <;> exact Option.noConfusion h
      · rintro (h | h)
        · exact h.elim
        · rw [h2] at h
          exact Bool.noConfusion h
    · have h2' : fitsOn b.grid (pieceBlocks p x (requiredY b.heights p x)) = false := by
        have := Bool.not_eq_true (fitsOn b.grid (placedBlocks b p x)) ▸ h2
        unfold placedBlocks at this; exact this
      simp [simCore, h1, h2', placedBlocks]

theorem simulateP_eq_none_iff (b : Board) (p : Piece) (x : Nat) :
    simulateP b p x = none ↔
      BOARD_WIDTH < x + p.width ∨
        ∃ yc ∈ placedBlocks b p x,
          BOARD_HEIGHT ≤ yc.1 ∨ b.grid yc.1 yc.2 = true := by
  rw [simulateP, Option.map_eq_none', simCore_eq_none_iff,
    fitsOn_eq_false_iff]

theorem applyP_fst_cases (b : Board) (p : Piece) (c x : Nat) :
    (applyP b p c x).1 =
      if BOARD_WIDTH < x + p.width then Except.error "Piece out of bounds"
      else if fitsOn b.grid (placedBlocks b p x) = false then
        Except.error "Piece doesn't fit"
      else Except.ok () := by
  by_cases h1 : BOARD_WIDTH < x + p.width
  · simp [applyP, h1]
  · by_cases h2 : fitsOn b.grid (placedBlocks b p x) = true
    · have h2' := h2
      unfold placedBlocks at h2'
      simp only [applyP, h1, if_false, h2', Bool.not_true, placedBlocks, h2]
      rw [if_neg (by simp : ¬(false = true)), if_neg (by simp : ¬(true = false))]
      split <;> rfl
    · have h2' : fitsOn b.grid (pieceBlocks p x (requiredY b.heights p x)) = false := by
        have := Bool.not_eq_true (fitsOn b.grid (placedBlocks b p x)) ▸ h2
        unfold placedBlocks at this; exact this
      simp [applyP, h1, h2', placedBlocks]

theorem applyP_fst_ok_iff (b : Board) (p : Piece) (c x : Nat) :
    (applyP b p c x).1 = .ok () ↔
      ¬BOARD_WIDTH < x + p.width ∧
        fitsOn b.grid (placedBlocks b p x) = true := by
  rw [applyP_fst_cases]
  by_cases h1 : BOARD_WIDTH < x + p.width
  · simp [h1]
  · by_cases h2 : fitsOn b.grid (placedBlocks b p x) = true
    · simp [h1, h2]
    · have h2' : fitsOn b.grid (placedBlocks b p x) = false :=
        Bool.not_eq_true _ ▸ h2
      simp [h1, h2']

theorem applyP_error_frame (b : Board) (p : Piece) (c x : Nat)
    (h : (applyP b p c x).1 ≠ .ok ()) : (applyP b p c x).2 = b := by
  by_cases h1 : BOARD_WIDTH < x + p.width
  · simp [applyP, h1]
  · by_cases h2 : fitsOn b.grid (placedBlocks b p x) = true
    · exfalso
      exact h ((applyP_fst_ok_iff b p c x).mpr ⟨h1, h2⟩)
    · have h2' : fitsOn b.grid (pieceBlocks p x (requiredY b.heights p x)) = false := by
        have := Bool.not_eq_true (fitsOn b.grid (placedBlocks b p x)) ▸ h2
        unfold placedBlocks at this; exact this
      simp [applyP, h1, h2']

theorem applyP_snd_eq (b : Board) (p : Piece) (c x : Nat)
    (h1 : ¬BOARD_WIDTH < x + p.width)
    (h2 : fitsOn b.grid (placedBlocks b p x) = true) :
    (applyP b p c x).2 =
      if (fullRows (placedGrid b p x)).isEmpty then
        { grid := placedGrid b p x
          color_grid := placeColor b.color_grid (placedBlocks b p x) c
          heights := placeHeights b.heights (placedBlocks b p x)
          score := b.score }
      else
        { grid := clearDown (fullRows (placedGrid b p x)) false (placedGrid b p x)
          color_grid :=
            clearDown (fullRows (placedGrid b p x)) none
              (placeColor b.color_grid (placedBlocks b p x) c)
          heights :=
            recalcHeights (clearDown (fullRows (placedGrid b p x)) false (placedGrid b p x))
          score := wrapI32 (b.score + scoreBonus (fullRows (placedGrid b p x)).length) } := by
  have h2' := h2
  unfold placedBlocks at h2'
  simp only [applyP, h1, if_false, h2', Bool.not_true, placedGrid, placedBlocks]
  rw [if_neg (by simp : ¬(false = true))]
  by_cases h3 :
      (fullRows (placeGrid b.grid (pieceBlocks p x (requiredY b.heights p x)))).isEmpty = true
  · simp only [h3, if_true, if_pos h3]
  · simp only [h3, if_false]
    simp

theorem simulateP_none_iff_applyP_not_ok (b : Board) (p : Piece) (c x : Nat) :
    simulateP b p x = none ↔ (applyP b p c x).1 ≠ .ok () := by
  rw [simulateP_eq_none_iff, Ne, applyP_fst_ok_iff, ← fitsOn_eq_false_iff]
  constructor
  · rintro (h | h)
    · rintro ⟨hn, _⟩; exact hn h
    · rintro ⟨_, h2⟩; rw [h2] at h; exact Bool.noConfusion h
  · intro h
    by_cases h1 : BOARD_WIDTH < x + p.width
    · exact Or.inl h1
    · refine Or.inr ?_
      rcases Bool.eq_false_or_eq_true (fitsOn b.grid (placedBlocks b p x)) with hf | hf
      · exact absurd ⟨h1, hf⟩ h
      · exact hf

/-! ## Claims -/

/-- C7: `evaluate` (`simulate`) is pure: the Rust method borrows the
board immutably, so any number of calls with identical board state and
identical `(piece, column, rotation)` yield identical results, and every
call passes the board state on unchanged (bit for bit). -/
theorem simulate_is_pure (b : Board) (pt : PieceType) (x : Nat) (rot : Fin 4)
    (n : Nat) :
    (simulateRun pt x rot b n).2 = b ∧
      ∀ r ∈ (simulateRun pt x rot b n).1, r = simulate b pt x rot := by
  induction n with
  | zero => exact ⟨rfl, by simp [simulateRun]⟩
  | succ n ih =>
    refine ⟨ih.1, ?_⟩
    intro r hr
    rcases List.mem_cons.mp hr with h | h
    · exact h
    · exact ih.2 r h

/-- C3: `simulate` returns `none` exactly when `apply` fails; the
failure condition is exactly "the column range exceeds the board width,
or some cell the piece would occupy is already set or lies at or above
board height"; and a failed `apply` returns the board completely
unchanged (occupancy grid, colour grid, heights and score), because the
mutating code runs only after both validation checks. -/
theorem simulate_apply_failure_agreement (b : Board) (pt : PieceType)
    (x : Nat) (rot : Fin 4) :
    (simulate b pt x rot = none ↔ (apply b pt x rot).1 ≠ .ok ()) ∧
    (simulate b pt x rot = none ↔
      (BOARD_WIDTH < x + (rotations pt rot).width ∨
        ∃ yc ∈ placedBlocks b (rotations pt rot) x,
          BOARD_HEIGHT ≤ yc.1 ∨ b.grid yc.1 yc.2 = true)) ∧
    ((apply b pt x rot).1 ≠ .ok () → (apply b pt x rot).2 = b) :=
  ⟨simulateP_none_iff_applyP_not_ok b (rotations pt rot) pt.toColor x,
    simulateP_eq_none_iff b (rotations pt rot) x,
    applyP_error_frame b (rotations pt rot) pt.toColor x⟩

/-- C3 witness: the out-of-bounds placement `x = 7` of a horizontal `I`
(width 4) on the empty board is rejected by `simulate` and leaves the
board untouched on the failed `apply`. -/
theorem simulate_apply_failure_agreement_witness :
    simulate Board.new .I 7 0 = none ∧
      (apply Board.new .I 7 0).2 = Board.new := by
  have herr : (apply Board.new PieceType.I 7 0).1 = Except.error "Piece out of bounds" :=
    rfl
  have hne : (apply Board.new PieceType.I 7 0).1 ≠ Except.ok () := by
    rw [herr]; exact fun hc => Except.noConfusion hc
  exact ⟨(simulate_apply_failure_agreement Board.new .I 7 0).1.mpr hne,
    (simulate_apply_failure_agreement Board.new .I 7 0).2.2 hne⟩

/-- The scoring table never subtracts. -/
theorem scoreBonus_nonneg (k : Nat) : 0 ≤ scoreBonus k := by
  unfold scoreBonus
  split_ifs <;> norm_num

/-- The wrap is the identity inside the `i32` range. -/
theorem wrapI32_eq_self (z : Int) (hlo : -(2 ^ 31) ≤ z) (hhi : z < 2 ^ 31) :
    wrapI32 z = z := by
  unfold wrapI32
  have e31 : (2 : Int) ^ 31 = 2147483648 := by norm_num
  have e32 : (2 : Int) ^ 32 = 4294967296 := by norm_num
  rw [e31] at hlo hhi ⊢
  rw [e32]
  omega

/-- C5 (counterexample): at score `2^31 - 50` a successful commit that
clears one row performs the wrapping `score += 100`, which overflows:
the score becomes `-(2^31 - 50)`, so it changes by `100 - 2^32`, not by
100, and *decreases* — refuting the claim's exact-delta and
never-decreases conjuncts at this input. -/
theorem apply_score_overflow_counterexample :
    (apply overflowBoard .I 0 1).1 = Except.ok () ∧
    (fullRows (placedGrid overflowBoard (rotations .I 1) 0)).length = 1 ∧
    overflowBoard.score = 2147483598 ∧
    ((apply overflowBoard .I 0 1).2).score = -2147483598 ∧
    ((apply overflowBoard .I 0 1).2).score < overflowBoard.score := by
  refine ⟨rfl, by decide, by decide, by decide, by decide⟩

/-- C5 (amended): a successful commit that clears no row leaves the
score untouched; one that clears `k ≥ 1` rows updates it by the
*wrapping* 32-bit addition of the table bonus (`scoreBonus`: 1 ↦ 100,
2 ↦ 300, 3 ↦ 500, 4 ↦ 800, anything else ↦ 0).  Whenever the sum stays
inside the `i32` range — in particular on every board the program can
build before the score nears `i32::MAX` — the score increases by
exactly the bonus and never decreases. -/
theorem apply_score_wrapped (b : Board) (pt : PieceType) (x : Nat)
    (rot : Fin 4) (h : (apply b pt x rot).1 = .ok ()) :
    ((fullRows (placedGrid b (rotations pt rot) x)).length = 0 →
      ((apply b pt x rot).2).score = b.score) ∧
    ((fullRows (placedGrid b (rotations pt rot) x)).length ≠ 0 →
      ((apply b pt x rot).2).score =
        wrapI32 (b.score +
          scoreBonus (fullRows (placedGrid b (rotations pt rot) x)).length)) ∧
    (-(2 ^ 31) ≤ b.score →
      b.score + scoreBonus (fullRows (placedGrid b (rotations pt rot) x)).length
          < 2 ^ 31 →
      ((apply b pt x rot).2).score =
          b.score + scoreBonus (fullRows (placedGrid b (rotations pt rot) x)).length ∧
        b.score ≤ ((apply b pt x rot).2).score) := by
  obtain ⟨h1, h2⟩ := (applyP_fst_ok_iff b (rotations pt rot) pt.toColor x).mp h
  have hbonus := scoreBonus_nonneg (fullRows (placedGrid b (rotations pt rot) x)).length
  by_cases h3 : (fullRows (placedGrid b (rotations pt rot) x)).isEmpty
  · have hlen : (fullRows (placedGrid b (rotations pt rot) x)).length = 0 := by
      rw [List.isEmpty_iff] at h3
      simp [h3]
    have hsc : ((apply b pt x rot).2).score = b.score := by
      rw [apply, applyP_snd_eq b (rotations pt rot) pt.toColor x h1 h2, if_pos h3]
    refine ⟨fun _ => hsc, fun hc => absurd hlen hc, fun hlo hhi => ?_⟩
    rw [hsc, hlen]
    have hz : scoreBonus 0 = 0 := by norm_num [scoreBonus]
    rw [hz]
    omega
  · have h3' : (fullRows (placedGrid b (rotations pt rot) x)).isEmpty = false :=
      Bool.not_eq_true _ ▸ h3
    have hlen : (fullRows (placedGrid b (rotations pt rot) x)).length ≠ 0 := by
      rw [List.isEmpty_eq_false_iff_exists_mem] at h3'
      obtain ⟨a, ha⟩ := h3'
      exact List.length_pos.mpr (List.ne_nil_of_mem ha) |>.ne'
    have hsc : ((apply b pt x rot).2).score =
        wrapI32 (b.score +
          scoreBonus (fullRows (placedGrid b (rotations pt rot) x)).length) := by
      rw [apply, applyP_snd_eq b (rotations pt rot) pt.toColor x h1 h2, h3',
        if_neg (show ¬(false = true) by simp)]
    refine ⟨fun hc => absurd hc hlen, fun _ => hsc, fun hlo hhi => ?_⟩
    rw [hsc, wrapI32_eq_self _ (by omega) hhi]
    omega

/-- C5 witness: at `demoBoard` (score 0) the sum stays inside `i32`, and
the single-row clear adds exactly 100 without decreasing the score. -/
theorem apply_score_wrapped_witness :
    ((apply demoBoard .I 0 1).2).score =
        demoBoard.score +
          scoreBonus (fullRows (placedGrid demoBoard (rotations .I 1) 0)).length ∧
      demoBoard.score ≤ ((apply demoBoard .I 0 1).2).score :=
  (apply_score_wrapped demoBoard .I 0 1 rfl).2.2 (by decide) (by decide)

/-- C1 (divergence): at `demoBoard`, dropping the vertical `I` into
column 0 succeeds in both entry points with the same cleared-row count 1,
but the hypothetical post-clear grid `simulate` computes its features on
differs from the grid `apply` commits: `simulate` leaves the surviving
piece cells at rows 1–3 (vacated row at the bottom), `apply` compacts
them down to rows 0–2 (vacated row at the top), so the two grids
disagree at cells (0,0) and (3,0).  The recomputed heights differ
accordingly (4 versus 3 in column 0). -/
theorem simulate_apply_clear_divergence :
    (simulate demoBoard .I 0 1).map (·.cleared) = some 1 ∧
    (apply demoBoard .I 0 1).1 = Except.ok () ∧
    (fullRows (placedGrid demoBoard (rotations .I 1) 0)).length = 1 ∧
    (simCore demoBoard (rotations .I 1) 0).map (fun s => s.1 3 0) = some true ∧
    (apply demoBoard .I 0 1).2.grid 3 0 = false ∧
    (simCore demoBoard (rotations .I 1) 0).map (fun s => s.1 0 0) = some false ∧
    (apply demoBoard .I 0 1).2.grid 0 0 = true ∧
    (simCore demoBoard (rotations .I 1) 0).map (fun s => s.2.1 0) = some 4 ∧
    (apply demoBoard .I 0 1).2.heights 0 = 3 := by
  refine ⟨rfl, rfl, by decide, rfl, by decide, rfl, by decide, rfl, by decide⟩

/-- Two folds over the same list agree when their step functions agree on
the list's elements. -/
theorem foldl_congr_mem {α β : Type} (l : List β) (f g : α → β → α) (a : α)
    (h : ∀ x ∈ l, ∀ acc, f acc x = g acc x) : l.foldl f a = l.foldl g a := by
  induction l generalizing a with
  | nil => rfl
  | cons y l ih =>
    rw [List.foldl_cons, List.foldl_cons, h y (List.mem_cons_self y l)]
    exact ih _ fun x hx acc => h x (List.mem_cons_of_mem y hx) acc

/-- The wells loop never lets an edge column contribute: at `x = 0` the
code sets `left = h 0` itself, so `h 0 < left` fails, and symmetrically
at `x = 9`. -/
theorem wellsOf_eq_wellsInterior (h : Nat → Nat) : wellsOf h = wellsInterior h := by
  unfold wellsOf wellsInterior
  refine foldl_congr_mem _ _ _ _ ?_
  intro x hx acc
  rw [List.mem_range] at hx
  have hw : BOARD_WIDTH = 10 := rfl
  rw [hw] at hx
  interval_cases x <;> simp [BOARD_WIDTH]

/-- C8 (counterexample): dropping the vertical `I` into column 1 of the
empty board produces heights `[0, 4, 0, …, 0]`; the claim's formula lets
edge column 0 (strictly lower than its single neighbor) contribute
`4 - 0 = 4`, but `simulate` computes `board_wells = 0` because the code
compares edge columns against their own height (always false). -/
theorem board_wells_edge_counterexample :
    (simulate Board.new .I 1 1).map (fun r => r.board_wells) = some 0 ∧
    (simCore Board.new (rotations .I 1) 1).map (fun s => wellsSpec s.2.1) = some 4 ∧
    (0 : Nat) ≠ 4 := by
  refine ⟨rfl, by decide, by decide⟩

/-- C8 (amended): the `board_wells` feature computed by `evaluate`
equals the sum over *interior* columns (1 ≤ c ≤ 8) whose height is
strictly less than both neighbors of `min(left, right) - height[c]`;
edge columns never contribute, because the code substitutes the edge
column's own height for its missing neighbor. -/
theorem board_wells_interior_only (b : Board) (pt : PieceType) (x : Nat)
    (rot : Fin 4)
    (s : (Nat → Nat → Bool) × (Nat → Nat) × List Nat × List (Nat × Nat))
    (hs : simCore b (rotations pt rot) x = some s) :
    (simulate b pt x rot).map (fun r => r.board_wells) =
      some (wellsInterior s.2.1) := by
  rw [simulate, simulateP, hs, Option.map_map]
  exact congrArg some (wellsOf_eq_wellsInterior s.2.1)

/-- C8 witness: on the `[0, 4, 0, …, 0]` heights of the counterexample
board the interior-only sum is 0, matching the computed feature. -/
theorem board_wells_interior_only_witness :
    (simulate Board.new .I 1 1).map (fun r => r.board_wells) = some 0 := by
  rw [board_wells_interior_only Board.new .I 1 1 _ rfl]
  decide

/-- The wrapping subtraction plus truncating cast plus absolute value
recover the exact absolute difference whenever both operands are at most
the board height. -/
theorem toInt32_wrapSub64_natAbs (a b : Nat) (ha : a ≤ 15) (hb : b ≤ 15) :
    ((toInt32 (wrapSub64 a b)).natAbs : Int) =
      (((a : Int) - (b : Int)).natAbs : Int) := by
  have e64 : (2 : Nat) ^ 64 = 18446744073709551616 := by norm_num
  have e32 : (2 : Nat) ^ 32 = 4294967296 := by norm_num
  have e31 : (2 : Nat) ^ 31 = 2147483648 := by norm_num
  unfold wrapSub64 toInt32
  rcases le_or_lt b a with hba | hba
  · have h1 : (a + (2 ^ 64 - b)) % 2 ^ 64 = a - b := by omega
    rw [h1]
    have h2 : (a - b) % 2 ^ 32 = a - b := by omega
    simp only [h2]
    rw [if_pos (show a - b < 2 ^ 31 by omega)]
    omega
  · have h1 : (a + (2 ^ 64 - b)) % 2 ^ 64 = 2 ^ 64 - (b - a) := by omega
    rw [h1]
    have h2 : (2 ^ 64 - (b - a)) % 2 ^ 32 = 2 ^ 32 - (b - a) := by omega
    simp only [h2]
    rw [if_neg (show ¬(2 ^ 32 - (b - a) < 2 ^ 31) by omega)]
    omega

theorem diversityOf_eq_specDiversity (h : Nat → Nat)
    (hb : ∀ c, c < BOARD_WIDTH → h c ≤ BOARD_HEIGHT) :
    diversityOf h = specDiversity h := by
  have e : List.range' 1 (BOARD_WIDTH - 1) = [1, 2, 3, 4, 5, 6, 7, 8, 9] := rfl
  have hb' : ∀ c, c < 10 → h c ≤ 15 := hb
  unfold diversityOf specDiversity
  rw [e]
  simp only [List.foldl_cons, List.foldl_nil]
  rw [toInt32_wrapSub64_natAbs (h 1) (h 0) (hb' 1 (by norm_num)) (hb' 0 (by norm_num)),
    toInt32_wrapSub64_natAbs (h 2) (h 1) (hb' 2 (by norm_num)) (hb' 1 (by norm_num)),
    toInt32_wrapSub64_natAbs (h 3) (h 2) (hb' 3 (by norm_num)) (hb' 2 (by norm_num)),
    toInt32_wrapSub64_natAbs (h 4) (h 3) (hb' 4 (by norm_num)) (hb' 3 (by norm_num)),
    toInt32_wrapSub64_natAbs (h 5) (h 4) (hb' 5 (by norm_num)) (hb' 4 (by norm_num)),
    toInt32_wrapSub64_natAbs (h 6) (h 5) (hb' 6 (by norm_num)) (hb' 5 (by norm_num)),
    toInt32_wrapSub64_natAbs (h 7) (h 6) (hb' 7 (by norm_num)) (hb' 6 (by norm_num)),
    toInt32_wrapSub64_natAbs (h 8) (h 7) (hb' 8 (by norm_num)) (hb' 7 (by norm_num)),
    toInt32_wrapSub64_natAbs (h 9) (h 8) (hb' 9 (by norm_num)) (hb' 8 (by norm_num))]

/-- C10: the diversity loop's unsigned subtraction
`temp_heights[x] - prev_h` wraps modulo 2^64 whenever the previous
column is taller; for heights bounded by the board height the truncating
`as i32` cast and `abs` nevertheless recover the exact sum of absolute
adjacent differences (first two conjuncts), and the no-underflow
condition really is violated during feature evaluation on a reachable
board: on the (reachable) empty board the vertical-`I` drop at column 1
yields temp heights with `h 2 = 0 < h 1 = 4`, so the step at `x = 2`
wraps (last conjunct). -/
theorem diversity_wrapping :
    (∀ h : Nat → Nat, (∀ c, c < BOARD_WIDTH → h c ≤ BOARD_HEIGHT) →
      diversityOf h = specDiversity h) ∧
    (∀ (b : Board) (pt : PieceType) (x : Nat) (rot : Fin 4)
        (s : (Nat → Nat → Bool) × (Nat → Nat) × List Nat × List (Nat × Nat)),
      simCore b (rotations pt rot) x = some s →
        (∀ c, c < BOARD_WIDTH → s.2.1 c ≤ BOARD_HEIGHT) →
        (simulate b pt x rot).map (fun r => r.diversity) =
          some (specDiversity s.2.1)) ∧
    (Reachable Board.new ∧
      (simCore Board.new (rotations .I 1) 1).map
          (fun s => decide (s.2.1 2 < s.2.1 1)) = some true) := by
  refine ⟨fun h hb => diversityOf_eq_specDiversity h hb, ?_, Reachable.base, by decide⟩
  intro b pt x rot s hs hb
  rw [simulate, simulateP, hs, Option.map_map]
  exact congrArg some (diversityOf_eq_specDiversity s.2.1 hb)

/-- C10 witness: the underflowing concrete run still returns the exact
absolute-difference sum `|4 - 0| + |0 - 4| = 8`. -/
theorem diversity_wrapping_witness :
    (simulate Board.new .I 1 1).map (fun r => r.diversity) = some 8 := by
  rw [diversity_wrapping.2.1 Board.new .I 1 1 _ rfl (by decide)]
  decide

/-! ## C4: the gravity formula -/

theorem ite_gt_eq_max (a v : Int) : (if v > a then v else a) = max a v := by
  split_ifs <;> omega

theorem foldl_max_init (l : List Int) (a b : Int) :
    l.foldl max (max a b) = max a (l.foldl max b) := by
  induction l generalizing b with
  | nil => rfl
  | cons v l ih =>
    rw [List.foldl_cons, List.foldl_cons, max_assoc, ih]

theorem le_foldl_max (l : List Int) (a : Int) : a ≤ l.foldl max a := by
  induction l generalizing a with
  | nil => exact le_refl a
  | cons v l ih => exact le_trans (le_max_left a v) (ih (max a v))

theorem foldl_flatMap {α β : Type} (l : List α) (g : α → List β)
    (f : Int → β → Int) (a : Int) :
    (l.flatMap g).foldl f a = l.foldl (fun acc x => (g x).foldl f acc) a := by
  induction l generalizing a with
  | nil => rfl
  | cons x l ih =>
    rw [List.flatMap_cons, List.foldl_append, List.foldl_cons, ih]

/-- Inner gravity loop: running `(max_i_for_dx, has_block)` state equals
the max-fold over the occupied offsets' `height - i` values. -/
theorem gravity_inner_spec (p : Piece) (dx : Nat) (hc : Int) (l : List Nat)
    (m : Int) (fl : Bool) :
    l.foldl
        (fun (acc : Int × Bool) i =>
          if p.occ i dx then
            ((if hc - (i : Int) > acc.1 then hc - (i : Int) else acc.1), true)
          else acc) (m, fl) =
      ((l.filterMap fun i =>
          if p.occ i dx then some (hc - (i : Int)) else none).foldl max m,
        fl || !(l.filterMap fun i =>
          if p.occ i dx then some (hc - (i : Int)) else none).isEmpty) := by
  induction l generalizing m fl with
  | nil => simp
  | cons i l ih =>
    by_cases hi : p.occ i dx = true
    · simp only [List.foldl_cons, hi, if_true, List.filterMap_cons]
      rw [ih, ite_gt_eq_max]
      simp
    · have hi' : p.occ i dx = false := Bool.not_eq_true _ ▸ hi
      simp only [List.foldl_cons, hi', Bool.false_eq_true, if_false,
        List.filterMap_cons]
      rw [ih]



theorem sel_fold_eq_max_fold (v : Nat → List Int) (l : List Nat) :
    ∀ req : Int, 0 ≤ req →
      l.foldl
          (fun req dx =>
            if (!(v dx).isEmpty) = true ∧ (v dx).foldl max 0 > req then
              (v dx).foldl max 0
            else req) req =
        l.foldl (fun req dx => (v dx).foldl max req) req := by
  induction l with
  | nil => intro req _; rfl
  | cons dx l ih =>
    intro req hreq
    have hstep :
        (if (!(v dx).isEmpty) = true ∧ (v dx).foldl max 0 > req then
          (v dx).foldl max 0
        else req) = (v dx).foldl max req := by
      cases hv : v dx with
      | nil => simp
      | cons w t =>
        simp only [List.isEmpty_cons, Bool.not_false, List.foldl_cons, true_and]
        rw [foldl_max_init t 0 w, foldl_max_init t req w]
        split_ifs <;> omega
    rw [List.foldl_cons, List.foldl_cons, hstep]
    exact ih _ (le_trans hreq (le_foldl_max _ _))

theorem requiredYInt_eq_restingSpec (h : Nat → Nat) (p : Piece) (x : Nat) :
    requiredYInt h p x = restingSpec h p x := by
  unfold requiredYInt restingSpec
  rw [foldl_flatMap]
  have step1 :
      (List.range p.width).foldl
        (fun req dx =>
          let col := x + dx
          let hcol := h col
          let r := (List.range p.height).foldl
            (fun (acc : Int × Bool) i =>
              if p.occ i dx then
                let cur : Int := (hcol : Int) - (i : Int)
                (if cur > acc.1 then cur else acc.1, true)
              else acc)
            ((0 : Int), false)
          if r.2 = true ∧ r.1 > req then r.1 else req) 0 =
      (List.range p.width).foldl
        (fun req dx =>
          if (!((List.range p.height).filterMap fun i =>
                if p.occ i dx then some ((h (x + dx) : Int) - (i : Int)) else none).isEmpty) = true ∧
              ((List.range p.height).filterMap fun i =>
                if p.occ i dx then some ((h (x + dx) : Int) - (i : Int)) else none).foldl max 0 > req then
            ((List.range p.height).filterMap fun i =>
              if p.occ i dx then some ((h (x + dx) : Int) - (i : Int)) else none).foldl max 0
          else req) 0 := by
    refine foldl_congr_mem _ _ _ _ ?_
    intro dx _ req
    show (fun r : Int × Bool => if r.2 = true ∧ r.1 > req then r.1 else req)
        ((List.range p.height).foldl
          (fun (acc : Int × Bool) i =>
            if p.occ i dx then
              (if (h (x + dx) : Int) - (i : Int) > acc.1 then (h (x + dx) : Int) - (i : Int) else acc.1, true)
            else acc)
          ((0 : Int), false)) = _
    rw [gravity_inner_spec]
    simp
  rw [step1]
  exact sel_fold_eq_max_fold _ _ 0 le_rfl

/-- C4: for every accepted placement, the resting row that both entry
points compute (`required_y`) equals the specification's formula: the
maximum over all spanned columns `c` and occupied row offsets `i` of
`height[c] - i`, clamped to at least 0.  (The equality holds for every
placement; acceptance is assumed only because the claim quantifies over
accepted ones.) -/
theorem resting_row_formula (b : Board) (pt : PieceType) (x : Nat)
    (rot : Fin 4) (hlegal : simulate b pt x rot ≠ none) :
    (requiredY b.heights (rotations pt rot) x : Int) =
        restingSpec b.heights (rotations pt rot) x ∧
      placedBlocks b (rotations pt rot) x =
        pieceBlocks (rotations pt rot) x
          ((restingSpec b.heights (rotations pt rot) x).toNat) := by
  have h0 : 0 ≤ restingSpec b.heights (rotations pt rot) x := by
    unfold restingSpec
    exact le_foldl_max _ _
  constructor
  · rw [requiredY, requiredYInt_eq_restingSpec, Int.toNat_of_nonneg h0]
  · rw [placedBlocks, requiredY, requiredYInt_eq_restingSpec]

/-- C4 witness: the `O` piece dropped at column 3 of `demoBoard` rests
on top of the occupied row 0, i.e. at row `height - i = 1`. -/
theorem resting_row_formula_witness :
    (requiredY demoBoard.heights (rotations .O 0) 3 : Int) =
        restingSpec demoBoard.heights (rotations .O 0) 3 ∧
      restingSpec demoBoard.heights (rotations .O 0) 3 = 1 := by
  refine ⟨(resting_row_formula demoBoard .O 3 0 (by decide)).1, by decide⟩


/-! ## C2: the committed clear compacts surviving rows downward -/

/-- The count of full rows below `k` grows by one exactly when `k`
itself is a full row (duplicate-free row list). -/
theorem clearedBelow_succ (full : List Nat) (hnd : full.Nodup) (k : Nat) :
    clearedBelow full (k + 1) =
      clearedBelow full k + (if k ∈ full then 1 else 0) := by
  unfold clearedBelow
  induction full with
  | nil => simp
  | cons a t ih =>
    have hih := ih (List.Nodup.of_cons hnd)
    rw [List.countP_cons, List.countP_cons, hih]
    simp only [List.mem_cons]
    by_cases hak : k = a
    · have hkt : k ∉ t := by
        subst hak
        exact (List.nodup_cons.mp hnd).1
      subst hak
      simp [hkt]
    · have e2 : decide (a < k + 1) = decide (a < k) := by
        rcases Nat.lt_or_ge a k with h | h
        · simp [h, Nat.lt_succ_of_lt h]
        · have h3 : ¬a < k + 1 := by omega
          simp [h3, show ¬a < k by omega]
      rw [e2]
      by_cases hkt : k ∈ t
      · rw [if_pos (Or.inr hkt), if_pos hkt]
        omega
      · have e1 : ¬(k = a ∨ k ∈ t) := by
          rintro (h | h)
          · exact hak h
          · exact hkt h
        rw [if_neg e1, if_neg hkt]
        omega

theorem clearedBelow_le (full : List Nat) (hnd : full.Nodup) (k : Nat) :
    clearedBelow full k ≤ k := by
  induction k with
  | zero => simp [clearedBelow]
  | succ k ih =>
    rw [clearedBelow_succ full hnd k]
    split_ifs <;> omega

/-- Surviving rows' target positions are strictly increasing. -/
theorem target_strict_mono (full : List Nat) (hnd : full.Nodup) (y z : Nat)
    (hy : y ∉ full) (hyz : y < z) :
    y - clearedBelow full y < z - clearedBelow full z := by
  induction z with
  | zero => omega
  | succ z ih =>
    have hby := clearedBelow_le full hnd y
    have hbz := clearedBelow_le full hnd z
    have hs := clearedBelow_succ full hnd z
    rcases Nat.lt_or_ge y z with h | h
    · have := ih h
      split_ifs at hs <;> omega
    · have hyez : y = z := by omega
      subst hyez
      rw [hs, if_neg hy]
      omega

theorem clearDown_eq_aux {α : Type} (full : List Nat) (e : α)
    (g : Nat → Nat → α) :
    clearDown full e g = (clearDownAux full g e BOARD_HEIGHT).2 := rfl

theorem clearDownAux_succ {α : Type} (full : List Nat) (g : Nat → Nat → α)
    (e : α) (n : Nat) :
    clearDownAux full g e (n + 1) =
      (fun (acc : Nat × (Nat → Nat → α)) y =>
        if full.contains y then
          (acc.1 + 1, acc.2)
        else
          (acc.1,
            if y - acc.1 < BOARD_HEIGHT then
              fun y' x => if y' = y - acc.1 then g y x else acc.2 y' x
            else acc.2)) (clearDownAux full g e n) n := by
  unfold clearDownAux
  rw [List.range_succ, List.foldl_append, List.foldl_cons, List.foldl_nil]

theorem clearDownAux_spec {α : Type} (full : List Nat) (hnd : full.Nodup)
    (g : Nat → Nat → α) (e : α) (n : Nat) (hn : n ≤ BOARD_HEIGHT) :
    (clearDownAux full g e n).1 = clearedBelow full n ∧
      (∀ y, y < n → y ∉ full → ∀ x,
        (clearDownAux full g e n).2 (y - clearedBelow full y) x = g y x) ∧
      (∀ y', (∀ y, y < n → y ∉ full → y' ≠ y - clearedBelow full y) → ∀ x,
        (clearDownAux full g e n).2 y' x = e) := by
  induction n with
  | zero =>
    refine ⟨by simp [clearDownAux, clearedBelow], fun y hy => absurd hy (by omega), ?_⟩
    intro y' _ x
    rfl
  | succ n ih =>
    obtain ⟨ih1, ih2, ih3⟩ := ih (by omega)
    rw [clearDownAux_succ]
    have hsucc := clearedBelow_succ full hnd n
    by_cases hf : n ∈ full
    · have hc : full.contains n = true := List.elem_iff.mpr hf
      simp only [hc, if_true]
      refine ⟨?_, ?_, ?_⟩
      · rw [hsucc, if_pos hf, ih1]
      · intro y hy hyf x
        have hyn : y ≠ n := fun hc' => hyf (hc' ▸ hf)
        exact ih2 y (by omega) hyf x
      · intro y' hy' x
        exact ih3 y' (fun y hy hyf => hy' y (by omega) hyf) x
    · have hc : full.contains n = false := by
        rw [← Bool.not_eq_true, List.elem_iff]
        exact hf
      simp only [hc, Bool.false_eq_true, if_false]
      have hguard : n - (clearDownAux full g e n).1 < BOARD_HEIGHT := by
        rw [ih1]
        have := clearedBelow_le full hnd n
        omega
      simp only [ih1, if_pos (ih1 ▸ hguard)]
      refine ⟨?_, ?_, ?_⟩
      · rw [hsucc, if_neg hf]
        omega
      · intro y hy hyf x
        rcases Nat.lt_or_ge y n with hlt | hge
        · have hne : y - clearedBelow full y ≠ n - clearedBelow full n :=
            Nat.ne_of_lt (target_strict_mono full hnd y n hyf hlt)
          rw [if_neg hne]
          exact ih2 y hlt hyf x
        · have hyn : y = n := by omega
          subst hyn
          rw [if_pos rfl]
      · intro y' hy' x
        have hne : y' ≠ n - clearedBelow full n :=
          hy' n (by omega) hf
        rw [if_neg hne]
        exact ih3 y' (fun y hy hyf => hy' y (by omega) hyf) x

/-- C2: after a commit that finds full rows, every surviving row `y`
moves down to `y - clearedBelow y` (exactly the number of cleared rows
below it; rows with none keep their position), the relative vertical
order of surviving rows is preserved, and every row of the new grid that
is not the image of a surviving row — in particular every slot formerly
holding a full row — is empty. -/
theorem fullRows_nodup (g : Nat → Nat → Bool) : (fullRows g).Nodup :=
  (List.nodup_range BOARD_HEIGHT).filter _

theorem apply_clear_shifts_down (b : Board) (pt : PieceType) (x : Nat)
    (rot : Fin 4) (hok : (apply b pt x rot).1 = .ok ())
    (hne : fullRows (placedGrid b (rotations pt rot) x) ≠ []) :
    (∀ y, y < BOARD_HEIGHT →
      y ∉ fullRows (placedGrid b (rotations pt rot) x) → ∀ c,
        ((apply b pt x rot).2).grid
            (y - clearedBelow (fullRows (placedGrid b (rotations pt rot) x)) y) c =
          placedGrid b (rotations pt rot) x y c) ∧
    (∀ y1 y2, y1 < y2 →
      y1 ∉ fullRows (placedGrid b (rotations pt rot) x) →
      y2 ∉ fullRows (placedGrid b (rotations pt rot) x) →
        y1 - clearedBelow (fullRows (placedGrid b (rotations pt rot) x)) y1 <
          y2 - clearedBelow (fullRows (placedGrid b (rotations pt rot) x)) y2) ∧
    (∀ y', (∀ y, y < BOARD_HEIGHT →
        y ∉ fullRows (placedGrid b (rotations pt rot) x) →
          y' ≠ y - clearedBelow (fullRows (placedGrid b (rotations pt rot) x)) y) →
      ∀ c, ((apply b pt x rot).2).grid y' c = false) := by
  obtain ⟨h1, h2⟩ := (applyP_fst_ok_iff b (rotations pt rot) pt.toColor x).mp hok
  have hemp : ¬((fullRows (placedGrid b (rotations pt rot) x)).isEmpty = true) :=
    fun hc => hne (List.isEmpty_iff.mp hc)
  have hgrid : ((apply b pt x rot).2).grid =
      clearDown (fullRows (placedGrid b (rotations pt rot) x)) false
        (placedGrid b (rotations pt rot) x) := by
    rw [apply, applyP_snd_eq b (rotations pt rot) pt.toColor x h1 h2, if_neg hemp]
  obtain ⟨_, hA, hB⟩ :=
    clearDownAux_spec (fullRows (placedGrid b (rotations pt rot) x))
      (fullRows_nodup _) (placedGrid b (rotations pt rot) x) false
      BOARD_HEIGHT le_rfl
  refine ⟨?_, ?_, ?_⟩
  · intro y hy hyf c
    rw [hgrid, clearDown_eq_aux]
    exact hA y hy hyf c
  · intro y1 y2 h12 h1f _
    exact target_strict_mono _ (fullRows_nodup _) y1 y2 h1f h12
  · intro y' hy' c
    rw [hgrid, clearDown_eq_aux]
    exact hB y' hy' c

/-- C2 witness: in the `demoBoard` commit, surviving row 1 (one cleared
row below it) lands on row 0 with its contents intact. -/
theorem apply_clear_shifts_down_witness :
    ((apply demoBoard .I 0 1).2).grid
        (1 - clearedBelow (fullRows (placedGrid demoBoard (rotations .I 1) 0)) 1) 0 =
      placedGrid demoBoard (rotations .I 1) 0 1 0 ∧
    clearedBelow (fullRows (placedGrid demoBoard (rotations .I 1) 0)) 1 = 1 := by
  refine ⟨(apply_clear_shifts_down demoBoard .I 0 1 rfl (by decide)).1
      1 (by decide) (by decide) 0, by decide⟩


/-! ## C6: the cached-heights invariant -/

/-- `specColHeight g c = h` unfolded: `h` is at most the board height,
row `h - 1` is occupied when `h ≠ 0`, and all rows from `h` up are
empty. -/
theorem specColHeight_eq_iff (g : Nat → Nat → Bool) (c h : Nat) :
    specColHeight g c = h ↔
      h ≤ BOARD_HEIGHT ∧ (h ≠ 0 → g (h - 1) c = true) ∧
        ∀ y, h ≤ y → y < BOARD_HEIGHT → g y c = false := by
  unfold specColHeight
  rw [Nat.findGreatest_eq_iff]
  constructor
  · rintro ⟨hle, hocc, habove⟩
    refine ⟨hle, fun hne => (hocc hne).2, ?_⟩
    intro y hy hylt
    by_contra hgc
    have hgc' : g y c = true := by
      rcases Bool.eq_false_or_eq_true (g y c) with h' | h'
      · exact h'
      · exact absurd h' hgc
    exact habove (by omega : h < y + 1) (by omega) ⟨by omega, by simpa using hgc'⟩
  · rintro ⟨hle, hocc, habove⟩
    refine ⟨hle, fun hne => ⟨Nat.pos_of_ne_zero hne, hocc hne⟩, ?_⟩
    intro n hn hnle hP
    have := habove (n - 1) (by omega) (by omega)
    rw [hP.2] at this
    exact Bool.noConfusion this

theorem specColHeight_new (c : Nat) :
    specColHeight Board.new.grid c = 0 := by
  rw [specColHeight_eq_iff]
  refine ⟨by norm_num [BOARD_HEIGHT], fun h => absurd rfl h, fun y _ _ => rfl⟩

/-- Characterisation of the descending `find?` scan over row indices. -/
theorem find_desc_spec (p : Nat → Bool) (n : Nat) :
    (∀ y, (List.range n).reverse.find? p = some y →
      p y = true ∧ y < n ∧ ∀ y', y < y' → y' < n → p y' = false) ∧
    ((List.range n).reverse.find? p = none → ∀ y, y < n → p y = false) := by
  induction n with
  | zero => exact ⟨fun y hy => by simp at hy, fun _ y hy => by omega⟩
  | succ n ih =>
    have hrev : (List.range (n + 1)).reverse = n :: (List.range n).reverse := by
      rw [List.range_succ, List.reverse_append]
      rfl
    rw [hrev]
    constructor
    · intro y hy
      by_cases hpn : p n = true
      · rw [List.find?_cons_of_pos _ hpn] at hy
        obtain rfl : n = y := by injection hy
        exact ⟨hpn, by omega, fun y' h1 h2 => by omega⟩
      · have hpn' : p n = false := Bool.not_eq_true _ ▸ hpn
        rw [List.find?_cons_of_neg _ (by simp [hpn'])] at hy
        obtain ⟨h1, h2, h3⟩ := ih.1 y hy
        refine ⟨h1, by omega, fun y' hy1 hy2 => ?_⟩
        rcases Nat.lt_or_ge y' n with h | h
        · exact h3 y' hy1 h
        · have : y' = n := by omega
          exact this ▸ hpn'
    · intro hy y hylt
      by_cases hpn : p n = true
      · rw [List.find?_cons_of_pos _ hpn] at hy
        exact Option.noConfusion hy
      · have hpn' : p n = false := Bool.not_eq_true _ ▸ hpn
        rw [List.find?_cons_of_neg _ (by simp [hpn'])] at hy
        rcases Nat.lt_or_ge y n with h | h
        · exact ih.2 hy y h
        · have : y = n := by omega
          exact this ▸ hpn'

/-- The post-clear height recomputation is exactly the specification's
column height, for every grid. -/
theorem recalcHeights_eq_spec (g : Nat → Nat → Bool) (c : Nat) :
    recalcHeights g c = specColHeight g c := by
  unfold recalcHeights
  cases hf : (List.range BOARD_HEIGHT).reverse.find? (fun y => g y c) with
  | none =>
    show (0 : Nat) = specColHeight g c
    rw [Eq.comm, specColHeight_eq_iff]
    exact ⟨by norm_num [BOARD_HEIGHT], fun h => absurd rfl h,
      fun y _ hy => (find_desc_spec (fun y => g y c) BOARD_HEIGHT).2 hf y hy⟩
  | some y =>
    show y + 1 = specColHeight g c
    obtain ⟨h1, h2, h3⟩ := (find_desc_spec (fun y => g y c) BOARD_HEIGHT).1 y hf
    rw [Eq.comm, specColHeight_eq_iff]
    exact ⟨by omega, fun _ => by simpa using h1,
      fun y' hy1 hy2 => h3 y' (by omega) hy2⟩

theorem mem_pieceBlocks {p : Piece} {x ry : Nat} {yc : Nat × Nat} :
    yc ∈ pieceBlocks p x ry ↔
      ∃ i, i < p.height ∧ ∃ j, j < p.width ∧ p.occ i j = true ∧
        yc = (ry + i, x + j) := by
  simp only [pieceBlocks, List.mem_flatMap, List.mem_filterMap, List.mem_range]
  constructor
  · rintro ⟨i, hi, j, hj, hij⟩
    by_cases ho : p.occ i j = true
    · rw [if_pos ho] at hij
      exact ⟨i, hi, j, hj, ho, (Option.some.injEq _ _).mp hij |>.symm⟩
    · rw [if_neg ho] at hij
      exact Option.noConfusion hij
  · rintro ⟨i, hi, j, hj, ho, rfl⟩
    exact ⟨i, hi, j, hj, by rw [if_pos ho]⟩

theorem le_foldl_max_of_mem (l : List Int) (a v : Int) (hv : v ∈ l) :
    v ≤ l.foldl max a := by
  induction l generalizing a with
  | nil => cases hv
  | cons w t ih =>
    rcases List.mem_cons.mp hv with rfl | hvt
    · exact le_trans (le_max_right a v) (le_foldl_max t (max a v))
    · exact ih _ hvt

/-- Gravity really rests the piece on top of the cached stack: every
block cell sits at or above its column's cached height. -/
theorem blocks_above_heights (b : Board) (p : Piece) (x : Nat) :
    ∀ yc ∈ placedBlocks b p x, b.heights yc.2 ≤ yc.1 := by
  intro yc hm
  rw [placedBlocks, mem_pieceBlocks] at hm
  obtain ⟨i, hi, j, hj, ho, rfl⟩ := hm
  have hval : ((b.heights (x + j) : Int) - (i : Int)) ≤ restingSpec b.heights p x := by
    unfold restingSpec
    refine le_foldl_max_of_mem _ _ _ ?_
    rw [List.mem_flatMap]
    refine ⟨j, List.mem_range.mpr hj, ?_⟩
    rw [List.mem_filterMap]
    exact ⟨i, List.mem_range.mpr hi, by rw [if_pos ho]⟩
  have h0 : 0 ≤ restingSpec b.heights p x := by
    unfold restingSpec
    exact le_foldl_max _ _
  have hry : (requiredY b.heights p x : Int) = restingSpec b.heights p x := by
    rw [requiredY, requiredYInt_eq_restingSpec, Int.toNat_of_nonneg h0]
  show b.heights (x + j) ≤ requiredY b.heights p x + i
  omega

theorem placeHeights_spec (bs : List (Nat × Nat)) (h : Nat → Nat) (c : Nat) :
    placeHeights h bs c =
      bs.foldl (fun m yc => if yc.2 = c then max m (yc.1 + 1) else m) (h c) := by
  induction bs generalizing h with
  | nil => rfl
  | cons yc t ih =>
    rw [placeHeights, List.foldl_cons, List.foldl_cons]
    have hstep := ih (fun c' => if c' = yc.2 then max (h c') (yc.1 + 1) else h c')
    rw [placeHeights] at hstep
    rw [hstep]
    congr 1
    by_cases hc : c = yc.2
    · rw [if_pos hc, if_pos hc.symm]
    · rw [if_neg hc, if_neg fun hx => hc hx.symm]

theorem init_le_phFold (bs : List (Nat × Nat)) (c a : Nat) :
    a ≤ bs.foldl (fun m yc => if yc.2 = c then max m (yc.1 + 1) else m) a := by
  induction bs generalizing a with
  | nil => exact le_refl a
  | cons yc t ih =>
    rw [List.foldl_cons]
    refine le_trans ?_ (ih _)
    split_ifs <;> omega

theorem mem_le_phFold (bs : List (Nat × Nat)) (c a : Nat) (yc : Nat × Nat)
    (hm : yc ∈ bs) (hc : yc.2 = c) :
    yc.1 + 1 ≤ bs.foldl (fun m yc => if yc.2 = c then max m (yc.1 + 1) else m) a := by
  induction bs generalizing a with
  | nil => cases hm
  | cons w t ih =>
    rw [List.foldl_cons]
    rcases List.mem_cons.mp hm with rfl | hmt
    · refine le_trans ?_ (init_le_phFold t c _)
      rw [if_pos hc]
      omega
    · exact ih _ hmt

theorem phFold_cases (bs : List (Nat × Nat)) (c a : Nat) :
    bs.foldl (fun m yc => if yc.2 = c then max m (yc.1 + 1) else m) a = a ∨
      ∃ yc ∈ bs, yc.2 = c ∧
        bs.foldl (fun m yc => if yc.2 = c then max m (yc.1 + 1) else m) a = yc.1 + 1 := by
  induction bs generalizing a with
  | nil => exact Or.inl rfl
  | cons w t ih =>
    rw [List.foldl_cons]
    by_cases hwc : w.2 = c
    · rw [if_pos hwc]
      rcases ih (max a (w.1 + 1)) with h | ⟨yc, hm, hyc, he⟩
      · rcases le_or_lt (w.1 + 1) a with hle | hlt
        · left
          rw [h]
          omega
        · right
          refine ⟨w, List.mem_cons_self w t, hwc, ?_⟩
          rw [h]
          omega
      · exact Or.inr ⟨yc, List.mem_cons_of_mem w hm, hyc, he⟩
    · rw [if_neg hwc]
      rcases ih a with h | ⟨yc, hm, hyc, he⟩
      · exact Or.inl h
      · exact Or.inr ⟨yc, List.mem_cons_of_mem w hm, hyc, he⟩

theorem placeGrid_spec (bs : List (Nat × Nat)) (g : Nat → Nat → Bool)
    (y x : Nat) :
    placeGrid g bs y x = (g y x || decide ((y, x) ∈ bs)) := by
  induction bs generalizing g with
  | nil => simp [placeGrid]
  | cons yc t ih =>
    rw [placeGrid, List.foldl_cons]
    have hstep := ih (fun y' x' => if y' = yc.1 ∧ x' = yc.2 then true else g y' x')
    rw [placeGrid] at hstep
    rw [hstep]
    by_cases hyc : (y, x) = yc
    · have : y = yc.1 ∧ x = yc.2 := by
        rw [Prod.ext_iff] at hyc
        exact hyc
      simp [this, hyc]
    · have : ¬(y = yc.1 ∧ x = yc.2) := fun hx => hyc (Prod.ext_iff.mpr hx)
      simp [this, List.mem_cons, hyc]

/-- Placing a piece on a board whose cached height for column `c` is
correct keeps it correct: all new cells of `c` land at or above the old
top, so the incremental `max` update matches the new topmost cell. -/
theorem placeHeights_preserves_spec (b : Board) (p : Piece) (x c : Nat)
    (hc : b.heights c = specColHeight b.grid c)
    (hfit : fitsOn b.grid (placedBlocks b p x) = true) :
    placeHeights b.heights (placedBlocks b p x) c =
      specColHeight (placeGrid b.grid (placedBlocks b p x)) c := by
  have hfit' := (fitsOn_eq_true_iff _ _).mp hfit
  obtain ⟨hole, hocc, habove⟩ :=
    (specColHeight_eq_iff b.grid c (b.heights c)).mp hc.symm
  have habv := blocks_above_heights b p x
  rw [placeHeights_spec, Eq.comm, specColHeight_eq_iff]
  refine ⟨?_, ?_, ?_⟩
  · rcases phFold_cases (placedBlocks b p x) c (b.heights c) with h | ⟨yc, hm, _, h⟩
    · rw [h]; exact hole
    · rw [h]
      exact (hfit' yc hm).1
  · intro hne
    rcases phFold_cases (placedBlocks b p x) c (b.heights c) with h | ⟨yc, hm, hyc, h⟩
    · rw [h] at hne ⊢
      rw [placeGrid_spec]
      rw [hocc hne]
      rfl
    · rw [h]
      rw [placeGrid_spec]
      have hmem : (yc.1, c) ∈ placedBlocks b p x := by
        have heq : yc = (yc.1, c) := Prod.ext_iff.mpr ⟨rfl, hyc⟩
        rw [← heq]
        exact hm
      simp [hmem]
  · intro y hyH hy15
    rw [placeGrid_spec]
    have h1 : b.grid y c = false := by
      refine habove y ?_ hy15
      exact le_trans (init_le_phFold _ _ _) hyH
    have h2 : (y, c) ∉ placedBlocks b p x := by
      intro hm
      have := mem_le_phFold (placedBlocks b p x) c (b.heights c) (y, c) hm rfl
      omega
    simp [h1, h2]

/-- One successful commit preserves the height invariant on every
column of the board. -/
theorem apply_preserves_heights (b : Board) (pt : PieceType) (x : Nat)
    (rot : Fin 4)
    (hinv : ∀ c, c < BOARD_WIDTH → b.heights c = specColHeight b.grid c)
    (hok : (apply b pt x rot).1 = .ok ()) :
    ∀ c, c < BOARD_WIDTH →
      ((apply b pt x rot).2).heights c =
        specColHeight ((apply b pt x rot).2).grid c := by
  intro c hcw
  obtain ⟨h1, h2⟩ := (applyP_fst_ok_iff b (rotations pt rot) pt.toColor x).mp hok
  rw [apply, applyP_snd_eq b (rotations pt rot) pt.toColor x h1 h2]
  by_cases h3 : (fullRows (placedGrid b (rotations pt rot) x)).isEmpty = true
  · rw [if_pos h3]
    exact placeHeights_preserves_spec b (rotations pt rot) x c (hinv c hcw) h2
  · rw [if_neg h3]
    exact recalcHeights_eq_spec _ c

/-- Every reachable board satisfies the height invariant. -/
theorem reachable_heights_inv (b : Board) (hr : Reachable b) :
    ∀ c, c < BOARD_WIDTH → b.heights c = specColHeight b.grid c := by
  induction hr with
  | base => exact fun c _ => (specColHeight_new c).symm
  | step pt x rot hr hok ih => exact apply_preserves_heights _ pt x rot ih hok

/-- C6: starting from the empty board, after every successful commit the
cached `height[c]` of every column equals one past the row of the
column's topmost occupied cell, or 0 if the column is empty
(`specColHeight`). -/
theorem height_invariant_after_commit (b : Board) (pt : PieceType) (x : Nat)
    (rot : Fin 4) (hr : Reachable b) (hok : (apply b pt x rot).1 = .ok ()) :
    ∀ c, c < BOARD_WIDTH →
      ((apply b pt x rot).2).heights c =
        specColHeight ((apply b pt x rot).2).grid c :=
  reachable_heights_inv _ (Reachable.step pt x rot hr hok)

/-- C6 witness: after committing the `O` piece at column 0 of the empty
board, column 0's cached height is 2, one past its topmost occupied
row 1. -/
theorem height_invariant_after_commit_witness :
    ((apply Board.new .O 0 0).2).heights 0 =
        specColHeight ((apply Board.new .O 0 0).2).grid 0 ∧
      ((apply Board.new .O 0 0).2).heights 0 = 2 :=
  ⟨height_invariant_after_commit Board.new .O 0 0 Reachable.base rfl 0 (by decide),
    by decide⟩


/-! ## C9: move selection -/

theorem head_insertAction {α : Type} [LinearOrder α] (a : Fin 4 × Nat × α)
    (l : List (Fin 4 × Nat × α)) :
    (insertAction a l).head? = pickMin l.head? a := by
  cases l with
  | nil => rfl
  | cons c t =>
    by_cases h : a.2.2 < c.2.2
    · simp [insertAction, h, pickMin]
    · simp [insertAction, h, pickMin]

theorem head_sortActions_fold {α : Type} [LinearOrder α]
    (l acc : List (Fin 4 × Nat × α)) :
    (l.foldl (fun acc a => insertAction a acc) acc).head? =
      l.foldl pickMin acc.head? := by
  induction l generalizing acc with
  | nil => rfl
  | cons a t ih =>
    rw [List.foldl_cons, List.foldl_cons, ih, head_insertAction]

theorem pickMin_fold_isSome {α : Type} [LinearOrder α]
    (l : List (Fin 4 × Nat × α)) (d : Fin 4 × Nat × α) :
    ∃ r, l.foldl pickMin (some d) = some r := by
  induction l generalizing d with
  | nil => exact ⟨d, rfl⟩
  | cons a t ih =>
    rw [List.foldl_cons]
    exact ih _

/-- Full characterisation of the fold that picks the first minimum:
the result is a minimal-score element, and ties keep the earliest. -/
theorem pickMin_fold_spec {α : Type} [LinearOrder α]
    (l : List (Fin 4 × Nat × α)) :
    ∀ (o : Option (Fin 4 × Nat × α)) r, l.foldl pickMin o = some r →
      (r ∈ l ∨ o = some r) ∧
      (∀ c ∈ l, r.2.2 ≤ c.2.2) ∧
      (∀ c, o = some c → r.2.2 ≤ c.2.2) ∧
      (∀ c, o = some c → c.2.2 ≤ r.2.2 → r = c) ∧
      (∀ l1 c l2, l = l1 ++ c :: l2 → c.2.2 ≤ r.2.2 →
        r = c ∨ r ∈ l1 ∨ o = some r) := by
  induction l with
  | nil =>
    intro o r hr
    have ho : o = some r := hr
    refine ⟨Or.inr ho, by simp, ?_, ?_, ?_⟩
    · intro c hc
      rw [ho] at hc
      obtain rfl : r = c := Option.some.inj hc
      exact le_refl _
    · intro c hc _
      rw [ho] at hc
      exact Option.some.inj hc
    · intro l1 c l2 hl
      exact absurd hl (by simp)
  | cons a t ih =>
    intro o r hr
    rw [List.foldl_cons] at hr
    obtain ⟨ih1, ih2, ih3, ih4, ih5⟩ := ih (pickMin o a) r hr
    obtain ⟨d, hdeq⟩ : ∃ d, pickMin o a = some d := ⟨_, rfl⟩
    have hd_cases : (o = none ∧ d = a) ∨
        ∃ c, o = some c ∧
          ((a.2.2 < c.2.2 ∧ d = a) ∨ (¬a.2.2 < c.2.2 ∧ d = c)) := by
      cases o with
      | none =>
        have he : pickMin (none : Option (Fin 4 × Nat × α)) a = some a := rfl
        rw [he] at hdeq
        exact Or.inl ⟨rfl, (Option.some.inj hdeq).symm⟩
      | some c =>
        have he : pickMin (some c) a =
            some (if a.2.2 < c.2.2 then a else c) := rfl
        by_cases h : a.2.2 < c.2.2
        · rw [he, if_pos h] at hdeq
          exact Or.inr ⟨c, rfl, Or.inl ⟨h, (Option.some.inj hdeq).symm⟩⟩
        · rw [he, if_neg h] at hdeq
          exact Or.inr ⟨c, rfl, Or.inr ⟨h, (Option.some.inj hdeq).symm⟩⟩
    have hrd : r.2.2 ≤ d.2.2 := ih3 d hdeq
    have hd_le_a : d.2.2 ≤ a.2.2 := by
      rcases hd_cases with ⟨_, rfl⟩ | ⟨c, _, ⟨_, rfl⟩ | ⟨hn, rfl⟩⟩
      · exact le_refl _
      · exact le_refl _
      · exact le_of_not_lt hn
    refine ⟨?_, ?_, ?_, ?_, ?_⟩
    · rcases ih1 with h | h
      · exact Or.inl (List.mem_cons_of_mem a h)
      · have hdr : d = r := Option.some.inj (hdeq ▸ h)
        rcases hd_cases with ⟨ho, hda⟩ | ⟨c, ho, ⟨_, hda⟩ | ⟨_, hdc⟩⟩
        · have hra : r = a := by rw [← hdr, hda]
          exact Or.inl (by rw [hra]; exact List.mem_cons_self a t)
        · have hra : r = a := by rw [← hdr, hda]
          exact Or.inl (by rw [hra]; exact List.mem_cons_self a t)
        · have hrc : r = c := by rw [← hdr, hdc]
          exact Or.inr (by rw [ho, hrc])
    · intro c hc
      rcases List.mem_cons.mp hc with rfl | hct
      · exact le_trans hrd hd_le_a
      · exact ih2 c hct
    · intro c hoc
      rcases hd_cases with ⟨ho, _⟩ | ⟨c', ho, hcc⟩
      · rw [ho] at hoc
        exact Option.noConfusion hoc
      · rw [ho] at hoc
        obtain rfl := Option.some.inj hoc
        rcases hcc with ⟨hlt, rfl⟩ | ⟨_, rfl⟩
        · exact le_trans hrd (le_of_lt hlt)
        · exact hrd
    · intro c hoc hcr
      rcases hd_cases with ⟨ho, _⟩ | ⟨c', ho, hcc⟩
      · rw [ho] at hoc
        exact Option.noConfusion hoc
      · rw [ho] at hoc
        obtain rfl := Option.some.inj hoc
        rcases hcc with ⟨hlt, hda⟩ | ⟨_, hdc⟩
        · exfalso
          rw [hda] at hrd
          exact absurd (lt_of_lt_of_le hlt (le_trans hcr hrd)) (lt_irrefl _)
        · rw [← hdc] at hcr ⊢
          exact ih4 d hdeq (le_trans hcr (le_refl _))
    · intro l1 c l2 hl hcr
      cases l1 with
      | nil =>
        obtain ⟨rfl, rfl⟩ : a = c ∧ t = l2 := by
          injection hl with h1 h2
          exact ⟨h1, h2⟩
        have hdr : d.2.2 ≤ r.2.2 := le_trans hd_le_a hcr
        have : r = d := ih4 d hdeq hdr
        subst this
        rcases hd_cases with ⟨_, rfl⟩ | ⟨c', ho, ⟨_, rfl⟩ | ⟨_, rfl⟩⟩
        · exact Or.inl rfl
        · exact Or.inl rfl
        · exact Or.inr (Or.inr ho)
      | cons a' l1' =>
        obtain ⟨rfl, ht⟩ : a' = a ∧ t = l1' ++ c :: l2 := by
          injection hl with h1 h2
          exact ⟨h1.symm, h2⟩
        rcases ih5 l1' c l2 ht hcr with h | h | h
        · exact Or.inl h
        · exact Or.inr (Or.inl (List.mem_cons_of_mem _ h))
        · have hdr : d = r := Option.some.inj (hdeq ▸ h)
          rcases hd_cases with ⟨ho, hda⟩ | ⟨c', ho, ⟨_, hda⟩ | ⟨_, hdc⟩⟩
          · have hra : r = a' := by rw [← hdr, hda]
            exact Or.inr (Or.inl (by rw [hra]; exact List.mem_cons_self _ _))
          · have hra : r = a' := by rw [← hdr, hda]
            exact Or.inr (Or.inl (by rw [hra]; exact List.mem_cons_self _ _))
          · have hrc : r = c' := by rw [← hdr, hdc]
            exact Or.inr (Or.inr (by rw [ho, hrc]))

theorem mem_possibleActions {α : Type} (b : Board) (pt : PieceType)
    (score : SimResult → α) (rot : Fin 4) (x : Nat) (s : α) :
    (rot, x, s) ∈ possibleActions b pt score ↔
      x ≤ BOARD_WIDTH - (rotations pt rot).width ∧
        ∃ res, simulate b pt x rot = some res ∧ s = score res := by
  unfold possibleActions
  rw [List.mem_flatMap]
  constructor
  · rintro ⟨rot', _, hmem⟩
    rw [List.mem_filterMap] at hmem
    obtain ⟨x', hx', hmap⟩ := hmem
    rw [Option.map_eq_some'] at hmap
    obtain ⟨res, hres, heq⟩ := hmap
    obtain ⟨h1, h2, h3⟩ : rot' = rot ∧ x' = x ∧ score res = s := by
      rw [Prod.ext_iff, Prod.ext_iff] at heq
      exact ⟨heq.1, heq.2.1, heq.2.2⟩
    subst h1; subst h2
    rw [List.mem_range] at hx'
    exact ⟨by omega, res, hres, h3.symm⟩
  · rintro ⟨hx, res, hres, hs⟩
    refine ⟨rot, List.mem_finRange rot, ?_⟩
    rw [List.mem_filterMap]
    refine ⟨x, List.mem_range.mpr (by omega), ?_⟩
    rw [Option.map_eq_some']
    exact ⟨res, hres, by rw [hs]⟩

theorem pairwise_possibleActions {α : Type} (b : Board) (pt : PieceType)
    (score : SimResult → α) :
    (possibleActions b pt score).Pairwise
      (fun a c => a.1 < c.1 ∨ (a.1 = c.1 ∧ a.2.1 < c.2.1)) := by
  unfold possibleActions
  rw [List.pairwise_flatMap]
  constructor
  · intro rot _
    rw [List.pairwise_filterMap]
    refine List.Pairwise.imp ?_ (List.pairwise_lt_range _)
    intro x1 x2 hx12 c hc d hd
    rw [Option.mem_def, Option.map_eq_some'] at hc hd
    obtain ⟨r1, _, hc⟩ := hc
    obtain ⟨r2, _, hd⟩ := hd
    rw [← hc, ← hd]
    exact Or.inr ⟨rfl, hx12⟩
  · refine List.Pairwise.imp ?_
      (show (List.finRange 4).Pairwise (· < ·) by decide)
    intro rot1 rot2 h12 c hc d hd
    rw [List.mem_filterMap] at hc hd
    obtain ⟨x1, _, hc⟩ := hc
    obtain ⟨x2, _, hd⟩ := hd
    rw [Option.map_eq_some'] at hc hd
    obtain ⟨r1, _, hc⟩ := hc
    obtain ⟨r2, _, hd⟩ := hd
    rw [← hc, ← hd]
    exact Or.inl h12

/-- C9: move selection.  (1) The enumeration contains exactly the
placements with `rotation ∈ 0..3`, `0 ≤ column ≤ W - width`, accepted by
`simulate` (rejected ones are discarded), paired with their score.
(2) When any placement is legal one is chosen.  (3) The chosen action is
a legal placement of minimal score; any other legal placement with the
same score has a higher rotation index, or the same rotation and a
column no lower; and the loop commits exactly the chosen action via
`apply`.  The score function is abstract (`f64` dot products are total
under the program's non-NaN comparator). -/
theorem move_selection_spec {α : Type} [LinearOrder α] (b : Board)
    (pt : PieceType) (score : SimResult → α) :
    (∀ (rot : Fin 4) (x : Nat) (s : α),
      (rot, x, s) ∈ possibleActions b pt score ↔
        x ≤ BOARD_WIDTH - (rotations pt rot).width ∧
          ∃ res, simulate b pt x rot = some res ∧ s = score res) ∧
    (possibleActions b pt score ≠ [] →
      (chooseAction b pt score).isSome = true) ∧
    (∀ a, chooseAction b pt score = some a →
      a ∈ possibleActions b pt score ∧
      (∀ a' ∈ possibleActions b pt score, a.2.2 ≤ a'.2.2) ∧
      (∀ a' ∈ possibleActions b pt score, a'.2.2 = a.2.2 →
        a.1 < a'.1 ∨ (a.1 = a'.1 ∧ a.2.1 ≤ a'.2.1)) ∧
      gameStep b pt score = some (apply b pt a.2.1 a.1)) := by
  have hhead : chooseAction b pt score =
      (possibleActions b pt score).foldl pickMin none := by
    rw [chooseAction, sortActions, head_sortActions_fold]
    rfl
  refine ⟨mem_possibleActions b pt score, ?_, ?_⟩
  · intro hne
    cases hl : possibleActions b pt score with
    | nil => exact absurd hl hne
    | cons a0 t =>
      rw [hhead, hl, List.foldl_cons]
      have hp : pickMin (none : Option (Fin 4 × Nat × α)) a0 = some a0 := rfl
      rw [hp]
      obtain ⟨r, hr⟩ := pickMin_fold_isSome t a0
      rw [hr]
      rfl
  · intro a ha
    have ha' : (possibleActions b pt score).foldl pickMin none = some a := by
      rw [← hhead]
      exact ha
    obtain ⟨h1, h2, _, _, h5⟩ :=
      pickMin_fold_spec (possibleActions b pt score) none a ha'
    have hmem : a ∈ possibleActions b pt score := by
      rcases h1 with h | h
      · exact h
      · exact Option.noConfusion h
    refine ⟨hmem, h2, ?_, ?_⟩
    · intro a' hmem' htie
      by_cases heq : a = a'
      · exact Or.inr ⟨by rw [heq], by rw [heq]⟩
      · obtain ⟨l1, l2, hsplit⟩ := List.append_of_mem hmem'
        rcases h5 l1 a' l2 hsplit (le_of_eq htie) with h | h | h
        · exact absurd h heq
        · have hpw := pairwise_possibleActions b pt score
          rw [hsplit] at hpw
          have hcross := (List.pairwise_append.mp hpw).2.2
          rcases hcross a h a' (List.mem_cons_self _ _) with h' | ⟨he, hlt⟩
          · exact Or.inl h'
          · exact Or.inr ⟨he, le_of_lt hlt⟩
        · exact Option.noConfusion h
    · have hca : chooseAction b pt score = some a := ha
      rw [gameStep, hca]
      rfl

/-- C9 witness: on the empty board with a constant score, all `O`-piece
placements tie, and the selection picks rotation 0, column 0 — the first
in enumeration order — and commits exactly that placement. -/
theorem move_selection_spec_witness :
    chooseAction Board.new .O (fun _ => (0 : Int)) = some (0, 0, 0) ∧
      (0, 0, (0 : Int)) ∈ possibleActions Board.new .O (fun _ => (0 : Int)) ∧
      gameStep Board.new .O (fun _ => (0 : Int)) =
        some (apply Board.new .O 0 0) := by
  have h := (move_selection_spec Board.new .O (fun _ => (0 : Int))).2.2
    (0, 0, 0) (by decide)
  exact ⟨by decide, h.1, h.2.2.2⟩

end Mortis
